import Mathlib

/-!
# Verification of the incremental ZIP appender

Shallow embedding of `src/inspect_ai/_util/zip.py` (`ZipAppender`): a seekable
byte stream is a list of bytes together with a position, and each method of the
Python class becomes a Lean function transcribed statement by statement.
Machine integers are `Nat` with explicit range checks where Python's `struct`
module enforces them; fallible operations return `Except`.
-/

set_option maxRecDepth 40000

namespace ZipSpec

/-- A byte string: Python `bytes` values are lists of naturals below 256. -/
abbrev Bytes := List Nat

/-- A seekable read/write stream: the underlying byte content plus the
current stream position (`file.tell()`). -/
structure FileState where
  data : Bytes
  pos : Nat
deriving DecidableEq, Repr

/-- The stream content padded with zero bytes up to the current position
(Python file objects pad with null bytes when writing past the end). -/
def padTo (fs : FileState) : Bytes :=
  fs.data ++ List.replicate (fs.pos - fs.data.length) 0

/-- Python `file.write(bs)`: overwrite bytes at the current position, extending the
stream as needed; the position advances past the written bytes. -/
def fwrite (bs : Bytes) (fs : FileState) : FileState :=
  ⟨(padTo fs).take fs.pos ++ bs ++ (padTo fs).drop (fs.pos + bs.length),
   fs.pos + bs.length⟩

/-- Python `file.read(n)`: read up to `n` bytes from the current position. -/
def fread (n : Nat) (fs : FileState) : Bytes × FileState :=
  let bs := (fs.data.drop fs.pos).take n
  (bs, ⟨fs.data, fs.pos + bs.length⟩)

/-- Python `file.read()`: read all bytes from the current position to the end. -/
def freadAll (fs : FileState) : Bytes × FileState :=
  let bs := fs.data.drop fs.pos
  (bs, ⟨fs.data, fs.pos + bs.length⟩)

/-- Python `file.seek(p)`: absolute seek. -/
def seekTo (p : Nat) (fs : FileState) : FileState := ⟨fs.data, p⟩

/-- Python exceptions raised by the appender: `ValueError` (with its message)
and `struct.error` (raised by `struct.pack`/`struct.unpack` for out-of-range
values or short buffers). -/
inductive PyErr where
  | valueError (msg : String)
  | structError
deriving DecidableEq, Repr

instance {ε α : Type} [DecidableEq ε] [DecidableEq α] :
    DecidableEq (Except ε α) := fun a b =>
  match a, b with
  | .ok x, .ok y =>
    if h : x = y then .isTrue (by rw [h])
    else .isFalse (fun hc => h (Except.ok.inj hc))
  | .ok _, .error _ => .isFalse (fun hc => Except.noConfusion hc)
  | .error _, .ok _ => .isFalse (fun hc => Except.noConfusion hc)
  | .error e, .error f =>
    if h : e = f then .isTrue (by rw [h])
    else .isFalse (fun hc => h (Except.error.inj hc))

/-- Little-endian 16-bit encoding of `n` (the bytes `struct.pack "<H"` emits
for an in-range value). -/
def w16 (n : Nat) : Bytes := [n % 256, n / 256 % 256]

/-- Little-endian 32-bit encoding of `n` (the bytes `struct.pack "<L"` emits
for an in-range value). -/
def w32 (n : Nat) : Bytes :=
  [n % 256, n / 256 % 256, n / 65536 % 256, n / 16777216 % 256]

/-- Python `struct.pack("<H", n)`: raises `struct.error` unless `0 ≤ n < 2^16`. -/
def packH (n : Nat) : Except PyErr Bytes :=
  if n < 65536 then .ok (w16 n) else .error .structError

/-- Python `struct.pack("<L", n)`: raises `struct.error` unless `0 ≤ n < 2^32`. -/
def packL (n : Nat) : Except PyErr Bytes :=
  if n < 4294967296 then .ok (w32 n) else .error .structError

/-- Python `struct.unpack("<H", bs)`: requires exactly two bytes. -/
def unpackH (bs : Bytes) : Except PyErr Nat :=
  match bs with
  | [a, b] => .ok (a + 256 * b)
  | _ => .error .structError

/-- Python `struct.unpack("<L", bs)`: requires exactly four bytes. -/
def unpackL (bs : Bytes) : Except PyErr Nat :=
  match bs with
  | [a, b, c, d] => .ok (a + 256 * b + 65536 * c + 16777216 * d)
  | _ => .error .structError

/-- Python slicing `d[i:j]` (for `i ≤ j`; clamps at the end of the list). -/
def slice (d : Bytes) (i j : Nat) : Bytes := (d.drop i).take (j - i)

/-- The little-endian 16-bit value stored at offset `i` of `d`. -/
def getLE16 (d : Bytes) (i : Nat) : Nat := d.getD i 0 + 256 * d.getD (i + 1) 0

/-- The little-endian 32-bit value stored at offset `i` of `d`. -/
def getLE32 (d : Bytes) (i : Nat) : Nat :=
  d.getD i 0 + 256 * d.getD (i + 1) 0 + 65536 * d.getD (i + 2) 0 +
    16777216 * d.getD (i + 3) 0

/-- The constant `ZipAppender.ZIP_HEADER = b"PK\x03\x04"`. -/
def ZIP_HEADER : Bytes := [80, 75, 3, 4]

/-- The constant `ZipAppender.CENTRAL_DIR_HEADER = b"PK\x01\x02"`. -/
def CENTRAL_DIR_HEADER : Bytes := [80, 75, 1, 2]

/-- The constant `ZipAppender.END_CENTRAL_DIR = b"PK\x05\x06"`. -/
def END_CENTRAL_DIR : Bytes := [80, 75, 5, 6]

/-- Does the pattern `pat` occur in `d` starting at index `i`? (Boolean.) -/
def matchesAt (pat d : Bytes) (i : Nat) : Bool :=
  decide ((d.drop i).take pat.length = pat)

/-- The pattern `pat` occurs in `d` starting at index `i`. -/
def occursAt (pat d : Bytes) (i : Nat) : Prop :=
  (d.drop i).take pat.length = pat

instance (pat d : Bytes) (i : Nat) : Decidable (occursAt pat d i) := by
  unfold occursAt; infer_instance

/-- Python `bytes.rfind`: index of the last occurrence of `pat` in `d`
(`none` when Python returns `-1`). -/
def rfind (pat d : Bytes) : Option Nat :=
  ((List.range d.length).filter (matchesAt pat d)).getLast?

/-! ## CRC-32 and raw DEFLATE

`zlib.crc32` and `zlib.compressobj(level=9, wbits=-15)` live in the zlib C
library, outside this repository. CRC-32 is a fixed algorithm (IEEE 802.3)
and is implemented here directly; the compressor is modelled from the spec.
-/

/-- One shift-and-conditionally-xor step of the bitwise CRC-32 computation
with the reflected IEEE 802.3 polynomial `0xEDB88320`. -/
def crc32Step (c : Nat) : Nat :=
  if c % 2 = 1 then (c / 2) ^^^ 0xEDB88320 else c / 2

/-- Fold one input byte into a CRC-32 accumulator. -/
def crc32Byte (c b : Nat) : Nat := crc32Step^[8] (c ^^^ b)

/-- Python `zlib.crc32(d)`: CRC-32 of `d` with the IEEE 802.3 polynomial,
initial value and final complement `0xFFFFFFFF`. -/
def crc32 (d : Bytes) : Nat :=
  (d.foldl crc32Byte 0xFFFFFFFF) ^^^ 0xFFFFFFFF

/-- One stored-block compression step: `fuel` bounds the number of non-final
blocks that may still be emitted (recursion is structural on `fuel` so that
the function evaluates inside the kernel). -/
def deflateGo : Nat → Bytes → Bytes
  | 0, d => 1 :: (w16 d.length ++ w16 (65535 - d.length)) ++ d
  | fuel + 1, d =>
    if d.length ≤ 65535 then
      1 :: (w16 d.length ++ w16 (65535 - d.length)) ++ d
    else
      0 :: (w16 65535 ++ w16 0) ++ d.take 65535 ++
        deflateGo fuel (d.drop 65535)

/-- Modelled from the spec: `zlib.compressobj(level=9, wbits=-15)` —
the raw-DEFLATE compressor (RFC 1951, "no zlib wrapper, no gzip wrapper") is
external library code not present in the repository. It is modelled as an
RFC 1951 encoder emitting stored (uncompressed) blocks: each block is a
block-header byte (`BFINAL` in bit 0, `BTYPE = 00` in bits 1–2), the 16-bit
little-endian block length `LEN`, its ones-complement `NLEN`, then the
block's bytes. This is a well-formed bare DEFLATE stream for every input,
and the empty input still yields a non-empty (5-byte) stream. -/
def deflateRaw (d : Bytes) : Bytes := deflateGo (d.length / 65535) d

/-- One stored-block decoding step; `gas` bounds the number of blocks. -/
def inflateGo : Nat → Bytes → Option Bytes
  | 0, _ => none
  | gas + 1, d =>
    match d with
    | b :: l1 :: l2 :: n1 :: n2 :: rest =>
      if b / 2 % 4 = 0 ∧ n1 + 256 * n2 = 65535 - (l1 + 256 * l2) ∧
          l1 + 256 * l2 ≤ rest.length then
        if b % 2 = 1 then
          some (rest.take (l1 + 256 * l2))
        else
          match inflateGo gas (rest.drop (l1 + 256 * l2)) with
          | some tail => some (rest.take (l1 + 256 * l2) ++ tail)
          | none => none
      else none
    | _ => none

/-- Modelled from the spec: a raw-DEFLATE decoder ("raw-inflating") for the
stored-block streams produced by `deflateRaw`: reads each block-header byte,
checks `BTYPE = 00` and that `NLEN` is the complement of `LEN`, consumes the
block's bytes, and stops after the block marked `BFINAL`. A stream of `n`
bytes holds fewer than `n` blocks, so `n` is enough gas. -/
def inflateRaw (d : Bytes) : Option Bytes := inflateGo d.length d

/-! ## The `ZipAppender` class -/

/-- The in-memory state of a `ZipAppender`: the underlying stream and
`self.existing_entries`, the list of raw central-directory-entry blobs. -/
structure ZipAppender where
  file : FileState
  existing_entries : List Bytes
deriving DecidableEq, Repr

/-- Method `ZipAppender._find_end_central_dir`: seek to the end to learn the file
size, read the final `min(1024, file_size)` bytes, and locate the last
occurrence of the EOCD signature in that tail; `ValueError` if absent. -/
def findEocd (fs : FileState) : Except PyErr (Nat × FileState) :=
  let fileSize := fs.data.length
  let fs := seekTo fileSize fs
  let chunkSize := min 1024 fileSize
  let fs := seekTo (fileSize - chunkSize) fs
  let (d, fs) := freadAll fs
  match rfind END_CENTRAL_DIR d with
  | none => .error (.valueError "Could not find end of central directory")
  | some p => .ok (fileSize - chunkSize + p, fs)

/-- Method `ZipAppender._read_central_dir_entry`: read the 46-byte fixed header,
extract the three little-endian length fields at offsets 28, 30 and 32, read
that many further bytes, and return the concatenated blob. -/
def readCde (fs : FileState) : Except PyErr (Bytes × FileState) := do
  let (entry, fs) := fread 46 fs
  let nameLength ← unpackH (slice entry 28 30)
  let extraLength ← unpackH (slice entry 30 32)
  let commentLength ← unpackH (slice entry 32 34)
  let (filename, fs) := fread nameLength fs
  let (extra, fs) := fread extraLength fs
  let (comment, fs) := fread commentLength fs
  .ok (entry ++ filename ++ extra ++ comment, fs)

/-- The `for _ in range(num_entries)` loop of `_load_central_dir`: read `n`
central-directory entries in order. -/
def readCdes : Nat → FileState → Except PyErr (List Bytes × FileState)
  | 0, fs => .ok ([], fs)
  | n + 1, fs => do
    let (e, fs) ← readCde fs
    let (es, fs') ← readCdes n fs
    .ok (e :: es, fs')

/-- Method `ZipAppender._load_central_dir`: locate the EOCD, read its 22 bytes,
check the signature, extract `num_entries` (offset 8) and `cd_offset`
(offset 16), seek to `cd_offset` and read the entries in order. -/
def loadCentralDir (fs : FileState) : Except PyErr (List Bytes × FileState) := do
  let (eocdPos, fs) ← findEocd fs
  let fs := seekTo eocdPos fs
  let (eocd, fs) := fread 22 fs
  if END_CENTRAL_DIR.isPrefixOf eocd then
    let numEntries ← unpackH (slice eocd 8 10)
    let _ ← unpackL (slice eocd 12 16)
    let cdOffset ← unpackL (slice eocd 16 20)
    let fs := seekTo cdOffset fs
    readCdes numEntries fs
  else
    .error (.valueError "Invalid end of central directory record")

/-- Method `ZipAppender.__init__`: store the stream and immediately load the
existing central directory. -/
def ZipAppender.init (fs : FileState) : Except PyErr ZipAppender := do
  let (entries, fs') ← loadCentralDir fs
  .ok ⟨fs', entries⟩

/-- The local file header built in `append_file` (fields in source order);
each `struct.pack` may raise, left to right. -/
def mkLocalHeader (crc compLen dataLen : Nat) (ename : Bytes) :
    Except PyErr Bytes := do
  let vn ← packH 20
  let fl ← packH 0x0800
  let cm ← packH 8
  let tm ← packH 0
  let dt ← packH 0
  let c ← packL crc
  let cs ← packL compLen
  let us ← packL dataLen
  let nl ← packH ename.length
  let el ← packH 0
  .ok (ZIP_HEADER ++ vn ++ fl ++ cm ++ tm ++ dt ++ c ++ cs ++ us ++ nl ++ el
    ++ ename)

/-- The central directory entry built in `append_file` (fields in source
order), holding the 32-bit back-pointer `lho` to the local header. -/
def mkCdEntry (crc compLen dataLen lho : Nat) (ename : Bytes) :
    Except PyErr Bytes := do
  let vm ← packH 20
  let vn ← packH 20
  let fl ← packH 0x0800
  let cm ← packH 8
  let tm ← packH 0
  let dt ← packH 0
  let c ← packL crc
  let cs ← packL compLen
  let us ← packL dataLen
  let nl ← packH ename.length
  let el ← packH 0
  let cl ← packH 0
  let dn ← packH 0
  let ia ← packH 0
  let ea ← packL 0
  let off ← packL lho
  .ok (CENTRAL_DIR_HEADER ++ vm ++ vn ++ fl ++ cm ++ tm ++ dt ++ c ++ cs ++ us
    ++ nl ++ el ++ cl ++ dn ++ ia ++ ea ++ off ++ ename)

/-- The end-of-central-directory record built in `append_file`. -/
def mkEocd (numEntries cdSize cdOffset : Nat) : Except PyErr Bytes := do
  let d1 ← packH 0
  let d2 ← packH 0
  let ne ← packH numEntries
  let te ← packH numEntries
  let sz ← packL cdSize
  let off ← packL cdOffset
  let cl ← packH 0
  .ok (END_CENTRAL_DIR ++ d1 ++ d2 ++ ne ++ te ++ sz ++ off ++ cl)

/-- Method `ZipAppender.append_file(filename, data)`, transcribed statement by
statement; `ename` stands for `filename.encode("utf-8")`. The stream is
mutated in place in Python, so an error carries the stream state at the
moment the exception was raised. -/
def ZipAppender.append_file (z : ZipAppender) (ename : Bytes) (data : Bytes) :
    Except (PyErr × FileState) ZipAppender :=
  let lho := z.file.pos
  let compressed := deflateRaw data
  let crc := crc32 data
  match mkLocalHeader crc compressed.length data.length ename with
  | .error e => .error (e, z.file)
  | .ok header =>
    let fs := fwrite header z.file
    let fs := fwrite compressed fs
    match mkCdEntry crc compressed.length data.length lho ename with
    | .error e => .error (e, fs)
    | .ok cdEntry =>
      let entries := z.existing_entries ++ [cdEntry]
      let cdOffset := fs.pos
      let fs := entries.foldl (fun f e => fwrite e f) fs
      match mkEocd entries.length (fs.pos - cdOffset) cdOffset with
      | .error e => .error (e, fs)
      | .ok eocd => .ok ⟨fwrite eocd fs, entries⟩

/-! ## Specification-side byte layouts

Total versions of the three records `append_file` emits, used to state what
the appender writes when every field is in range. -/

/-- The exact byte layout of the local file header `append_file` emits. -/
def localHeaderBytes (crc compLen dataLen : Nat) (ename : Bytes) : Bytes :=
  ZIP_HEADER ++ w16 20 ++ w16 0x0800 ++ w16 8 ++ w16 0 ++ w16 0 ++ w32 crc
    ++ w32 compLen ++ w32 dataLen ++ w16 ename.length ++ w16 0 ++ ename

/-- The exact byte layout of the central directory entry `append_file`
synthesizes, with back-pointer `lho`. -/
def cdEntryBytes (crc compLen dataLen lho : Nat) (ename : Bytes) : Bytes :=
  CENTRAL_DIR_HEADER ++ w16 20 ++ w16 20 ++ w16 0x0800 ++ w16 8 ++ w16 0
    ++ w16 0 ++ w32 crc ++ w32 compLen ++ w32 dataLen ++ w16 ename.length
    ++ w16 0 ++ w16 0 ++ w16 0 ++ w16 0 ++ w32 0 ++ w32 lho ++ ename

/-- The exact byte layout of the end-of-central-directory record. -/
def eocdBytes (n sz off : Nat) : Bytes :=
  END_CENTRAL_DIR ++ w16 0 ++ w16 0 ++ w16 n ++ w16 n ++ w32 sz ++ w32 off
    ++ w16 0

/-- All range conditions under which every `struct.pack` in one
`append_file` call succeeds. -/
def appendOk (z : ZipAppender) (ename data : Bytes) : Prop :=
  ename.length < 65536 ∧
  crc32 data < 4294967296 ∧
  (deflateRaw data).length < 4294967296 ∧
  data.length < 4294967296 ∧
  z.file.pos < 4294967296 ∧
  z.existing_entries.length + 1 < 65536 ∧
  (z.existing_entries ++ [cdEntryBytes (crc32 data) (deflateRaw data).length
    data.length z.file.pos ename]).flatten.length < 4294967296 ∧
  z.file.pos + (30 + ename.length) + (deflateRaw data).length < 4294967296

instance (z : ZipAppender) (ename data : Bytes) :
    Decidable (appendOk z ename data) := by
  unfold appendOk; infer_instance

/-! ## Stream lemmas -/

theorem ok_bind {α β ε : Type} (a : α) (f : α → Except ε β) :
    (Except.ok a >>= f) = f a := rfl

theorem padTo_length (fs : FileState) :
    (padTo fs).length = max fs.data.length fs.pos := by
  simp only [padTo, List.length_append, List.length_replicate]; omega

theorem take_padTo_length (fs : FileState) :
    ((padTo fs).take fs.pos).length = fs.pos := by
  simp only [List.length_take, padTo_length]; omega

theorem fwrite_pos (bs : Bytes) (fs : FileState) :
    (fwrite bs fs).pos = fs.pos + bs.length := rfl

theorem fwrite_pos_le (bs : Bytes) (fs : FileState) :
    (fwrite bs fs).pos ≤ (fwrite bs fs).data.length := by
  simp only [fwrite, List.length_append, take_padTo_length]; omega

/-- Two consecutive writes are one write of the concatenation. -/
theorem fwrite_fwrite (a b : Bytes) (fs : FileState) :
    fwrite b (fwrite a fs) = fwrite (a ++ b) fs := by
  have hP : ((padTo fs).take fs.pos).length = fs.pos := take_padTo_length fs
  have hpad : padTo (fwrite a fs) =
      (padTo fs).take fs.pos ++ (a ++ (padTo fs).drop (fs.pos + a.length)) := by
    show (fwrite a fs).data ++
        List.replicate ((fwrite a fs).pos - (fwrite a fs).data.length) 0 =
      (padTo fs).take fs.pos ++ (a ++ (padTo fs).drop (fs.pos + a.length))
    simp only [fwrite, List.length_append, hP]
    rw [show fs.pos + a.length -
        (fs.pos + a.length + ((padTo fs).drop (fs.pos + a.length)).length) = 0
      from by omega]
    simp [List.append_assoc]
  have hpos : (fwrite b (fwrite a fs)).pos = (fwrite (a ++ b) fs).pos := by
    simp only [fwrite_pos, List.length_append]; omega
  have hdata : (fwrite b (fwrite a fs)).data = (fwrite (a ++ b) fs).data := by
    show (padTo (fwrite a fs)).take (fwrite a fs).pos ++ b ++
        (padTo (fwrite a fs)).drop ((fwrite a fs).pos + b.length) =
      (padTo fs).take fs.pos ++ (a ++ b) ++
        (padTo fs).drop (fs.pos + (a ++ b).length)
    rw [hpad, fwrite_pos]
    generalize hQ : (padTo fs).take fs.pos = P at hP ⊢
    have t1 : List.take (fs.pos + a.length) (P ++ (a ++
        (padTo fs).drop (fs.pos + a.length))) = P ++ a := by
      rw [List.take_append_eq_append_take, hP,
        List.take_of_length_le (by omega),
        show fs.pos + a.length - fs.pos = a.length from by omega,
        List.take_left]
    have t2 : List.drop (fs.pos + a.length + b.length) (P ++ (a ++
        (padTo fs).drop (fs.pos + a.length))) =
        (padTo fs).drop (fs.pos + (a.length + b.length)) := by
      rw [List.drop_append_eq_append_drop, List.drop_eq_nil_of_le (by omega),
        hP, show fs.pos + a.length + b.length - fs.pos = a.length + b.length
          from by omega,
        List.drop_append_eq_append_drop, List.drop_eq_nil_of_le (by omega),
        show a.length + b.length - a.length = b.length from by omega,
        List.drop_drop]
      rw [show fs.pos + a.length + b.length = fs.pos + (a.length + b.length)
        from by omega]
      simp
    rw [t1, t2]
    simp [List.append_assoc]
  cases h1 : fwrite b (fwrite a fs)
  cases h2 : fwrite (a ++ b) fs
  simp only [h1, h2] at hpos hdata
  simp [hpos, hdata]

/-- The `for entry in ...: write(entry)` loop is one write of the flattened
blobs, provided the position does not exceed the end of the stream. -/
theorem foldl_fwrite (es : List Bytes) (fs : FileState)
    (hp : fs.pos ≤ fs.data.length) :
    es.foldl (fun f e => fwrite e f) fs = fwrite es.flatten fs := by
  induction es generalizing fs with
  | nil =>
    show fs = fwrite [] fs
    have hpad : padTo fs = fs.data := by
      simp only [padTo, show fs.pos - fs.data.length = 0 from by omega]
      simp
    show fs = ⟨(padTo fs).take fs.pos ++ [] ++ (padTo fs).drop (fs.pos + 0), _⟩
    rw [hpad]
    cases fs
    simp
  | cons e es ih =>
    show es.foldl (fun f e => fwrite e f) (fwrite e fs) = _
    rw [ih (fwrite e fs) (fwrite_pos_le e fs), fwrite_fwrite]
    rfl

/-- Bytes written by `fwrite` can be read back by slicing at the write
position. -/
theorem fwrite_slice (bs : Bytes) (fs : FileState) (i j : Nat)
    (hj : j ≤ bs.length) :
    slice (fwrite bs fs).data (fs.pos + i) (fs.pos + j) = slice bs i j := by
  have hP : ((padTo fs).take fs.pos).length = fs.pos := take_padTo_length fs
  show slice ((padTo fs).take fs.pos ++ bs ++
      (padTo fs).drop (fs.pos + bs.length)) (fs.pos + i) (fs.pos + j) =
    slice bs i j
  unfold slice
  generalize hQ : (padTo fs).take fs.pos = P at hP ⊢
  rw [List.append_assoc]
  rw [List.drop_append_eq_append_drop, hP,
    List.drop_eq_nil_of_le (by omega),
    show fs.pos + i - fs.pos = i from by omega, List.nil_append,
    List.drop_append_eq_append_drop,
    show fs.pos + j - (fs.pos + i) = j - i from by omega]
  rcases le_or_lt i bs.length with hi | hi
  · rw [List.take_append_eq_append_take,
      show j - i - (List.drop i bs).length = 0 from by
        simp only [List.length_drop]; omega]
    simp
  · rw [show j - i = 0 from by omega]
    simp

/-- Frame property of `fwrite`: bytes strictly before the write position are
unchanged. -/
theorem fwrite_getD_frame (bs : Bytes) (fs : FileState) (i : Nat)
    (h1 : i < fs.pos) (h2 : i < fs.data.length) :
    (fwrite bs fs).data.getD i 0 = fs.data.getD i 0 := by
  have hP : ((padTo fs).take fs.pos).length = fs.pos := take_padTo_length fs
  show ((padTo fs).take fs.pos ++ bs ++
      (padTo fs).drop (fs.pos + bs.length)).getD i 0 = fs.data.getD i 0
  rw [List.append_assoc, List.getD_append _ _ _ _ (by omega)]
  rw [List.getD_eq_getElem?_getD, List.getElem?_take]
  rw [if_pos h1]
  unfold padTo
  rw [List.getElem?_append, if_pos h2, ← List.getD_eq_getElem?_getD]

/-! ## The successful `append_file` in closed form -/

theorem localHeaderBytes_length (crc compLen dataLen : Nat) (ename : Bytes) :
    (localHeaderBytes crc compLen dataLen ename).length = 30 + ename.length := by
  simp [localHeaderBytes, w16, w32, ZIP_HEADER]
  omega

theorem cdEntryBytes_length (crc compLen dataLen lho : Nat) (ename : Bytes) :
    (cdEntryBytes crc compLen dataLen lho ename).length = 46 + ename.length := by
  simp [cdEntryBytes, w16, w32, CENTRAL_DIR_HEADER]
  omega

theorem eocdBytes_length (n sz off : Nat) : (eocdBytes n sz off).length = 22 := by
  simp [eocdBytes, w16, w32, END_CENTRAL_DIR]

theorem mkLocalHeader_ok (crc compLen dataLen : Nat) (ename : Bytes)
    (h1 : crc < 4294967296) (h2 : compLen < 4294967296)
    (h3 : dataLen < 4294967296) (h4 : ename.length < 65536) :
    mkLocalHeader crc compLen dataLen ename =
      .ok (localHeaderBytes crc compLen dataLen ename) := by
  simp [mkLocalHeader, localHeaderBytes, packH, packL, ok_bind, h1, h2, h3, h4]

theorem mkCdEntry_ok (crc compLen dataLen lho : Nat) (ename : Bytes)
    (h1 : crc < 4294967296) (h2 : compLen < 4294967296)
    (h3 : dataLen < 4294967296) (h4 : ename.length < 65536)
    (h5 : lho < 4294967296) :
    mkCdEntry crc compLen dataLen lho ename =
      .ok (cdEntryBytes crc compLen dataLen lho ename) := by
  simp [mkCdEntry, cdEntryBytes, packH, packL, ok_bind, h1, h2, h3, h4, h5]

theorem mkEocd_ok (n sz off : Nat) (h1 : n < 65536) (h2 : sz < 4294967296)
    (h3 : off < 4294967296) :
    mkEocd n sz off = .ok (eocdBytes n sz off) := by
  simp [mkEocd, eocdBytes, packH, packL, ok_bind, h1, h2, h3]

/-- The new central directory entry one `append_file` call synthesizes. -/
def appendedEntry (z : ZipAppender) (ename data : Bytes) : Bytes :=
  cdEntryBytes (crc32 data) (deflateRaw data).length data.length z.file.pos
    ename

/-- The value of `self.existing_entries` after one successful `append_file` call. -/
def appendedEntries (z : ZipAppender) (ename data : Bytes) : List Bytes :=
  z.existing_entries ++ [appendedEntry z ename data]

/-- The offset at which `append_file` writes the new central directory. -/
def appendCdOffset (z : ZipAppender) (ename data : Bytes) : Nat :=
  z.file.pos + (30 + ename.length) + (deflateRaw data).length

/-- Everything one successful `append_file` call writes, as a single byte
string starting at the position held on entry. -/
def appendBigWrite (z : ZipAppender) (ename data : Bytes) : Bytes :=
  localHeaderBytes (crc32 data) (deflateRaw data).length data.length ename
    ++ deflateRaw data
    ++ (appendedEntries z ename data).flatten
    ++ eocdBytes (z.existing_entries.length + 1)
        (appendedEntries z ename data).flatten.length
        (appendCdOffset z ename data)

/-- Under the range conditions `appendOk`, one `append_file` call succeeds
and is exactly one `fwrite` of `appendBigWrite` at the entry position. -/
theorem append_file_ok (z : ZipAppender) (ename data : Bytes)
    (h : appendOk z ename data) :
    z.append_file ename data =
      .ok ⟨fwrite (appendBigWrite z ename data) z.file,
           appendedEntries z ename data⟩ := by
  obtain ⟨h1, h2, h3, h4, h5, h6, h7, h8⟩ := h
  have hLH := mkLocalHeader_ok (crc32 data) (deflateRaw data).length
    data.length ename h2 h3 h4 h1
  have hCD := mkCdEntry_ok (crc32 data) (deflateRaw data).length
    data.length z.file.pos ename h2 h3 h4 h1 h5
  simp only [ZipAppender.append_file, hLH, hCD]
  rw [show z.existing_entries ++ [cdEntryBytes (crc32 data)
      (deflateRaw data).length data.length z.file.pos ename] =
    appendedEntries z ename data from rfl]
  have hfold : (appendedEntries z ename data).foldl (fun f e => fwrite e f)
      (fwrite (deflateRaw data)
        (fwrite (localHeaderBytes (crc32 data) (deflateRaw data).length
          data.length ename) z.file)) =
      fwrite (appendedEntries z ename data).flatten
        (fwrite (deflateRaw data)
          (fwrite (localHeaderBytes (crc32 data) (deflateRaw data).length
            data.length ename) z.file)) :=
    foldl_fwrite _ _ (fwrite_pos_le _ _)
  rw [hfold]
  have hcount : (appendedEntries z ename data).length =
      z.existing_entries.length + 1 := by
    simp [appendedEntries]
  have hpos2 : (fwrite (appendedEntries z ename data).flatten
      (fwrite (deflateRaw data)
        (fwrite (localHeaderBytes (crc32 data) (deflateRaw data).length
          data.length ename) z.file))).pos =
      appendCdOffset z ename data +
        (appendedEntries z ename data).flatten.length := by
    simp only [fwrite_pos, appendCdOffset, localHeaderBytes_length]
  have hpos1 : (fwrite (deflateRaw data)
      (fwrite (localHeaderBytes (crc32 data) (deflateRaw data).length
        data.length ename) z.file)).pos = appendCdOffset z ename data := by
    simp only [fwrite_pos, appendCdOffset, localHeaderBytes_length]
  rw [hcount, hpos2, hpos1, Nat.add_sub_cancel_left]
  have h7' : (appendedEntries z ename data).flatten.length < 4294967296 := h7
  have h8' : appendCdOffset z ename data < 4294967296 := h8
  simp only [mkEocd_ok _ _ _ h6 h7' h8']
  rw [fwrite_fwrite, fwrite_fwrite, fwrite_fwrite]
  simp [appendBigWrite, List.append_assoc]

/-! ## Properties of the modelled compressor and of CRC-32 -/

theorem le16_split (n : Nat) (h : n < 65536) :
    n % 256 + 256 * (n / 256 % 256) = n := by omega

/-- The compressed stream is never empty (in particular not for the empty
payload). -/
theorem deflateRaw_ne_nil (d : Bytes) : deflateRaw d ≠ [] := by
  unfold deflateRaw
  cases hq : d.length / 65535 with
  | zero => simp [deflateGo]
  | succ fuel =>
    rw [deflateGo]
    split <;> simp

/-- A final stored block decodes to its payload (with any positive gas). -/
theorem inflateGo_final_block (gas : Nat) (d : Bytes)
    (h : d.length ≤ 65535) :
    inflateGo (gas + 1) (1 :: (w16 d.length ++ w16 (65535 - d.length)) ++ d) =
      some d := by
  simp only [w16, List.cons_append, List.nil_append]
  rw [inflateGo]
  rw [if_pos (by
    refine ⟨by decide, ?_, ?_⟩
    · rw [le16_split d.length (by omega),
        le16_split (65535 - d.length) (by omega)]
    · rw [le16_split d.length (by omega)])]
  rw [if_pos (by decide)]
  rw [le16_split d.length (by omega), List.take_length]

/-- Decoding inverts fuelled encoding, as long as the fuel covers the
payload and the gas exceeds the fuel. -/
theorem inflateGo_deflateGo : ∀ (fuel gas : Nat) (d : Bytes),
    d.length ≤ 65535 * fuel + 65535 → fuel < gas →
    inflateGo gas (deflateGo fuel d) = some d := by
  intro fuel
  induction fuel with
  | zero =>
    intro gas d hlen hgas
    obtain ⟨g, rfl⟩ : ∃ g, gas = g + 1 := ⟨gas - 1, by omega⟩
    rw [deflateGo]
    exact inflateGo_final_block g d (by omega)
  | succ fuel ih =>
    intro gas d hlen hgas
    obtain ⟨g, rfl⟩ : ∃ g, gas = g + 1 := ⟨gas - 1, by omega⟩
    rw [deflateGo]
    split
    case isTrue h => exact inflateGo_final_block g d h
    case isFalse h =>
      simp only [w16, List.cons_append, List.nil_append]
      rw [inflateGo]
      rw [if_pos (by
        refine ⟨by decide, by norm_num, ?_⟩
        rw [show (255 : Nat) + 256 * 255 = 65535 from by norm_num]
        simp only [List.length_append, List.length_take]
        omega)]
      rw [if_neg (by decide)]
      rw [show (255 : Nat) + 256 * 255 = 65535 from by norm_num]
      rw [List.drop_left' (by simp only [List.length_take]; omega),
        List.take_left' (by simp only [List.length_take]; omega)]
      rw [ih g (d.drop 65535) (by simp only [List.length_drop]; omega)
        (by omega)]
      simp [List.take_append_drop]

/-- The fuelled encoder always produces a stream strictly longer than its
input. -/
theorem deflateGo_length_gt : ∀ (fuel : Nat) (d : Bytes),
    d.length < (deflateGo fuel d).length := by
  intro fuel
  induction fuel with
  | zero =>
    intro d
    simp [deflateGo, w16]
    omega
  | succ fuel ih =>
    intro d
    rw [deflateGo]
    split
    · simp [w16]
      omega
    · simp only [w16, List.cons_append, List.nil_append, List.length_cons,
        List.length_append, List.length_take]
      have := ih (d.drop 65535)
      simp only [List.length_drop] at this
      omega

/-- Raw-inflating the raw-DEFLATE stream of any payload gives back exactly
the payload. -/
theorem inflateRaw_deflateRaw (d : Bytes) :
    inflateRaw (deflateRaw d) = some d := by
  unfold inflateRaw deflateRaw
  refine inflateGo_deflateGo (d.length / 65535) (deflateGo (d.length / 65535) d).length d ?_ ?_
  · omega
  · have h1 := deflateGo_length_gt (d.length / 65535) d
    have h2 : d.length / 65535 ≤ d.length := Nat.div_le_self _ _
    omega


theorem xor_lt32 {x y : Nat} (hx : x < 4294967296) (hy : y < 4294967296) :
    x ^^^ y < 4294967296 := by
  have h32 : (4294967296 : Nat) = 2 ^ 32 := by norm_num
  rw [h32] at hx hy ⊢
  exact Nat.xor_lt_two_pow hx hy

theorem crc32Step_lt (c : Nat) (h : c < 4294967296) :
    crc32Step c < 4294967296 := by
  unfold crc32Step
  split
  · exact xor_lt32 (by omega) (by norm_num)
  · omega

theorem iterate_crc32Step_lt (n c : Nat) (h : c < 4294967296) :
    crc32Step^[n] c < 4294967296 := by
  induction n generalizing c with
  | zero => simpa using h
  | succ n ih =>
    rw [Function.iterate_succ_apply]
    exact ih _ (crc32Step_lt _ h)

/-- CRC-32 of a byte string is a 32-bit value. -/
theorem crc32_lt (d : Bytes) (hb : ∀ b ∈ d, b < 256) :
    crc32 d < 4294967296 := by
  unfold crc32
  refine xor_lt32 ?_ (by norm_num)
  have key : ∀ (l : Bytes) (acc : Nat), acc < 4294967296 →
      (∀ b ∈ l, b < 256) → l.foldl crc32Byte acc < 4294967296 := by
    intro l
    induction l with
    | nil => intro acc hacc _; simpa using hacc
    | cons x t ih =>
      intro acc hacc hmem
      show (t.foldl crc32Byte (crc32Byte acc x)) < 4294967296
      refine ih _ ?_ (fun b hb2 => hmem b (List.mem_cons_of_mem _ hb2))
      exact iterate_crc32Step_lt 8 _
        (xor_lt32 hacc (lt_trans (hmem x (List.mem_cons_self _ _)) (by norm_num)))
  exact key d 0xFFFFFFFF (by norm_num) hb

/-! ## Characterizing the EOCD tail scan -/

/-- The final `min(1024, file_size)` bytes of a byte string: the window the
scanner reads. -/
def tailWindow (d : Bytes) : Bytes := d.drop (d.length - min 1024 d.length)

theorem occursAt_drop (pat d : Bytes) (k i : Nat) :
    occursAt pat (d.drop k) i ↔ occursAt pat d (k + i) := by
  unfold occursAt
  rw [List.drop_drop]

theorem occursAt_add_length_le (pat d : Bytes) (i : Nat) (hpat : pat ≠ [])
    (h : occursAt pat d i) : i + pat.length ≤ d.length := by
  unfold occursAt at h
  have hlen : (List.take pat.length (d.drop i)).length = pat.length := by
    rw [h]
  rw [List.length_take, List.length_drop] at hlen
  have hpz : pat.length ≠ 0 := fun h0 => hpat (List.length_eq_zero.mp h0)
  have hle : pat.length ≤ d.length - i := by
    rcases Nat.le_total pat.length (d.length - i) with hh | hh
    · exact hh
    · rw [Nat.min_eq_right hh] at hlen; omega
  omega

theorem getLast?_max_of_sorted : ∀ (l : List Nat), l.Pairwise (· < ·) →
    ∀ p, l.getLast? = some p → ∀ x ∈ l, x ≤ p := by
  intro l
  induction l with
  | nil => intro _ p hp; simp at hp
  | cons a t ih =>
    intro hpw p hp x hx
    rcases List.pairwise_cons.mp hpw with ⟨ha, hpt⟩
    cases t with
    | nil =>
      simp only [List.getLast?_singleton, Option.some.injEq] at hp
      simp only [List.mem_singleton] at hx
      omega
    | cons b t' =>
      rw [List.getLast?_cons_cons] at hp
      have hpmem : p ∈ b :: t' := by
        rcases List.mem_getLast?_eq_getLast (l := b :: t') (x := p) hp
          with ⟨hne, rfl⟩
        exact List.getLast_mem hne
      rcases List.mem_cons.mp hx with rfl | hx2
      · exact le_of_lt (ha p hpmem)
      · exact ih hpt p hp x hx2

/-- Python `rfind` finds nothing exactly when the pattern occurs nowhere. -/
theorem rfind_eq_none (pat d : Bytes) (hpat : pat ≠ []) :
    rfind pat d = none ↔ ∀ i, ¬ occursAt pat d i := by
  unfold rfind
  rw [List.getLast?_eq_none_iff, List.filter_eq_nil_iff]
  constructor
  · intro h i hocc
    have hple : i + pat.length ≤ d.length :=
      occursAt_add_length_le pat d i hpat hocc
    have hlt : i < d.length := by
      have hz : pat.length ≠ 0 := fun h0 => hpat (List.length_eq_zero.mp h0)
      omega
    exact h i (List.mem_range.mpr hlt) (by
      simpa [matchesAt, occursAt] using hocc)
  · intro h i _ hm
    exact h i (by simpa [matchesAt, occursAt] using hm)

/-- What `rfind` returns is an occurrence of the pattern, and the last one. -/
theorem rfind_eq_some (pat d : Bytes) (p : Nat) (hpat : pat ≠ [])
    (h : rfind pat d = some p) :
    occursAt pat d p ∧ ∀ q, p < q → ¬ occursAt pat d q := by
  unfold rfind at h
  have hpmem : p ∈ (List.range d.length).filter (matchesAt pat d) := by
    rcases List.mem_getLast?_eq_getLast
      (l := (List.range d.length).filter (matchesAt pat d)) (x := p) h
      with ⟨hne, rfl⟩
    exact List.getLast_mem hne
  have hocc : occursAt pat d p := by
    have := (List.mem_filter.mp hpmem).2
    simpa [matchesAt, occursAt] using this
  refine ⟨hocc, ?_⟩
  intro q hq hoccq
  have hple := occursAt_add_length_le pat d q hpat hoccq
  have hqlen : q < d.length := by
    have hz : pat.length ≠ 0 := fun h0 => hpat (List.length_eq_zero.mp h0)
    omega
  have hqmem : q ∈ (List.range d.length).filter (matchesAt pat d) :=
    List.mem_filter.mpr ⟨List.mem_range.mpr hqlen,
      by simpa [matchesAt, occursAt] using hoccq⟩
  have := getLast?_max_of_sorted _
    ((List.pairwise_lt_range d.length).filter _) p h q hqmem
  omega

/-- Method `_find_end_central_dir` in closed form: everything is determined by the
tail window; a found index is reported relative to the window start, and the
stream is left positioned at the end. -/
theorem findEocd_eq (fs : FileState) :
    findEocd fs = (match rfind END_CENTRAL_DIR (tailWindow fs.data) with
      | none => .error (.valueError "Could not find end of central directory")
      | some p => .ok (fs.data.length - min 1024 fs.data.length + p,
          (⟨fs.data, fs.data.length⟩ : FileState))) := by
  have harith : fs.data.length - min 1024 fs.data.length +
      (fs.data.drop (fs.data.length - min 1024 fs.data.length)).length =
      fs.data.length := by
    rw [List.length_drop]; omega
  simp only [findEocd, seekTo, freadAll, tailWindow]
  cases hr : rfind END_CENTRAL_DIR
    (fs.data.drop (fs.data.length - min 1024 fs.data.length)) with
  | none => rfl
  | some p => rw [harith]

/-- C7: opening an archive reads exactly the final `min(1024, file_size)`
bytes of the stream; when that window contains no EOCD signature `PK\x05\x06`
the scan fails with the `ValueError` realizing `MalformedArchive`, and when it
succeeds the reported position is an occurrence of the signature inside the
window and the last occurrence in the stream. -/
theorem claim_C7_tail_scan (fs : FileState) :
    ((∀ i, i < (tailWindow fs.data).length →
        ¬ occursAt END_CENTRAL_DIR (tailWindow fs.data) i) →
      findEocd fs =
        .error (.valueError "Could not find end of central directory")) ∧
    (∀ p fs', findEocd fs = .ok (p, fs') →
      fs.data.length - min 1024 fs.data.length ≤ p ∧
      occursAt END_CENTRAL_DIR fs.data p ∧
      (∀ q, p < q → ¬ occursAt END_CENTRAL_DIR fs.data q)) := by
  constructor
  · intro h
    rw [findEocd_eq]
    have hnone : rfind END_CENTRAL_DIR (tailWindow fs.data) = none := by
      rw [rfind_eq_none _ _ (by decide)]
      intro i
      rcases lt_or_ge i (tailWindow fs.data).length with hi | hi
      · exact h i hi
      · intro hocc
        have hb := occursAt_add_length_le _ _ _ (by decide) hocc
        have h4 : END_CENTRAL_DIR.length = 4 := by decide
        omega
    rw [hnone]
  · intro p fs' hok
    rw [findEocd_eq] at hok
    cases hr : rfind END_CENTRAL_DIR (tailWindow fs.data) with
    | none => rw [hr] at hok; exact absurd hok (by simp)
    | some p' =>
      rw [hr] at hok
      have hp : fs.data.length - min 1024 fs.data.length + p' = p := by
        have := (Except.ok.injEq _ _).mp hok
        exact congrArg Prod.fst this
      rcases rfind_eq_some _ _ _ (by decide) hr with ⟨hocc, hmax⟩
      refine ⟨by omega, ?_, ?_⟩
      · rw [← hp]
        exact (occursAt_drop _ _ _ _).mp hocc
      · intro q hq hoccq
        have hble := occursAt_add_length_le _ _ _ (by decide) hoccq
        have hqged : fs.data.length - min 1024 fs.data.length ≤ q := by omega
        have hq2 : occursAt END_CENTRAL_DIR (tailWindow fs.data)
            (q - (fs.data.length - min 1024 fs.data.length)) := by
          unfold tailWindow
          rw [occursAt_drop]
          rw [show fs.data.length - min 1024 fs.data.length +
            (q - (fs.data.length - min 1024 fs.data.length)) = q from by omega]
          exact hoccq
        exact hmax _ (by omega) hq2

/-- Closed instance of C7: a 3-byte stream with no signature is rejected. -/
theorem claim_C7_witness :
    findEocd ⟨[1, 2, 3], 0⟩ =
      .error (.valueError "Could not find end of central directory") :=
  (claim_C7_tail_scan ⟨[1, 2, 3], 0⟩).1 (by decide)

/-! ## Result projections and sample archives -/

/-- Entries list of a successful `append_file` result. -/
def okEntriesOf (r : Except (PyErr × FileState) ZipAppender) :
    Option (List Bytes) :=
  match r with
  | .ok z => some z.existing_entries
  | .error _ => none

/-- Stream bytes of a successful `append_file` result. -/
def okDataOf (r : Except (PyErr × FileState) ZipAppender) : Option Bytes :=
  match r with
  | .ok z => some z.file.data
  | .error _ => none

/-- Stream position of a successful `append_file` result. -/
def okPosOf (r : Except (PyErr × FileState) ZipAppender) : Option Nat :=
  match r with
  | .ok z => some z.file.pos
  | .error _ => none

/-- A slice of the stream bytes of a successful `append_file` result. -/
def sliceOfData (r : Except (PyErr × FileState) ZipAppender) (i j : Nat) :
    Option Bytes :=
  match r with
  | .ok z => some (slice z.file.data i j)
  | .error _ => none

/-- The exception kind of a failed `append_file` call. -/
def errKindOf (r : Except (PyErr × FileState) ZipAppender) : Option PyErr :=
  match r with
  | .ok _ => none
  | .error (e, _) => some e

/-- The stream state at the moment a failed `append_file` call raised. -/
def errFileOf (r : Except (PyErr × FileState) ZipAppender) : Option FileState :=
  match r with
  | .ok _ => none
  | .error (_, fs) => some fs

/-- The 32-bit `local_header_offset` field (at offset 42) of the last
central-directory entry held after a successful `append_file`. -/
def newEntryOffsetField (r : Except (PyErr × FileState) ZipAppender) :
    Option Nat :=
  match r with
  | .ok z => z.existing_entries.getLast?.map (fun e => getLE32 e 42)
  | .error _ => none

/-- An empty archive: the bare 22-byte EOCD a reference writer produces for
an archive with no entries. -/
def emptyArchive : Bytes := END_CENTRAL_DIR ++ List.replicate 18 0

/-- The appender state obtained by opening `emptyArchive`. -/
def sampleZ0 : ZipAppender := ⟨⟨emptyArchive, 0⟩, []⟩

/-- The stream contents after appending `"a" ↦ b""` to the empty archive. -/
def sample1Data : Bytes :=
  [80, 75, 3, 4, 20, 0, 0, 8, 8, 0, 0, 0, 0, 0, 0, 0, 0, 0, 5, 0, 0, 0, 0, 0,
   0, 0, 1, 0, 0, 0, 97, 1, 0, 0, 255, 255, 80, 75, 1, 2, 20, 0, 20, 0, 0, 8,
   8, 0, 0, 0, 0, 0, 0, 0, 0, 0, 5, 0, 0, 0, 0, 0, 0, 0, 1, 0, 0, 0, 0, 0, 0,
   0, 0, 0, 0, 0, 0, 0, 0, 0, 0, 0, 97, 80, 75, 5, 6, 0, 0, 0, 0, 1, 0, 1, 0,
   47, 0, 0, 0, 36, 0, 0, 0, 0, 0]

/-- The central-directory blob for the entry `"a"`. -/
def sample1Blob : Bytes :=
  [80, 75, 1, 2, 20, 0, 20, 0, 0, 8, 8, 0, 0, 0, 0, 0, 0, 0, 0, 0, 5, 0, 0,
   0, 0, 0, 0, 0, 1, 0, 0, 0, 0, 0, 0, 0, 0, 0, 0, 0, 0, 0, 0, 0, 0, 0, 97]

/-- The appender state after appending `"a" ↦ b""` to the empty archive. -/
def sampleZ1 : ZipAppender := ⟨⟨sample1Data, 105⟩, [sample1Blob]⟩

/-- The central-directory blob for the entry `"b"` appended second; its
back-pointer field holds 105, the end of the previous EOCD. -/
def sample2Blob : Bytes :=
  [80, 75, 1, 2, 20, 0, 20, 0, 0, 8, 8, 0, 0, 0, 0, 0, 0, 0, 0, 0, 5, 0, 0,
   0, 0, 0, 0, 0, 1, 0, 0, 0, 0, 0, 0, 0, 0, 0, 0, 0, 0, 0, 105, 0, 0, 0, 98]

/-- The appender state after appending `"a" ↦ b""` then `"b" ↦ b""`. -/
def sampleZ2 : ZipAppender :=
  ⟨⟨sample1Data ++
    [80, 75, 3, 4, 20, 0, 0, 8, 8, 0, 0, 0, 0, 0, 0, 0, 0, 0, 5, 0, 0, 0, 0,
     0, 0, 0, 1, 0, 0, 0, 98, 1, 0, 0, 255, 255] ++
    sample1Blob ++ sample2Blob ++
    [80, 75, 5, 6, 0, 0, 0, 0, 2, 0, 2, 0, 94, 0, 0, 0, 141, 0, 0, 0, 0, 0],
    257⟩,
   [sample1Blob, sample2Blob]⟩

/-! ## Claim C9 -/

/-- C9 counterexample: constructing the appender on a zero-length stream does
not succeed — `_find_end_central_dir` raises `ValueError` because the empty
tail window holds no EOCD signature. -/
theorem claim_C9_counterexample :
    ZipAppender.init ⟨[], 0⟩ =
      .error (.valueError "Could not find end of central directory") := by
  decide

/-- C9 (amended): construction is insensitive to the stream's initial
position, and for an archive consisting of a bare zero-entry EOCD it succeeds
from any position with zero loaded entries; a zero-length stream, however,
fails (see the counterexample). -/
theorem claim_C9_amended :
    (∀ (d : Bytes) (p p' : Nat),
      ZipAppender.init ⟨d, p⟩ = ZipAppender.init ⟨d, p'⟩) ∧
    (∀ p : Nat, ZipAppender.init ⟨emptyArchive, p⟩ =
      .ok ⟨⟨emptyArchive, 0⟩, []⟩) := by
  have hind : ∀ (d : Bytes) (p p' : Nat),
      ZipAppender.init ⟨d, p⟩ = ZipAppender.init ⟨d, p'⟩ := by
    intro d p p'
    rfl
  refine ⟨hind, fun p => ?_⟩
  rw [hind emptyArchive p 0]
  decide

/-! ## Claim C1 -/

/-- C1 counterexample: on the archive obtained by appending `"a"` to an empty
archive, the EOCD written by that append records `cd_offset = 36`; but the
next `append_file` records `local_header_offset = 105` for its entry — the
stream was not repositioned to the remembered `cd_offset` 36 (it stayed at
the end of the written EOCD), so the new local entry does not overwrite the
old central directory. -/
theorem claim_C1_counterexample :
    ZipAppender.init ⟨emptyArchive, 0⟩ = .ok sampleZ0 ∧
    sampleZ0.append_file [97] [] = .ok sampleZ1 ∧
    getLE32 sampleZ1.file.data (sampleZ1.file.data.length - 6) = 36 ∧
    newEntryOffsetField (sampleZ1.append_file [98] []) = some 105 ∧
    (105 : Nat) ≠ 36 := by
  refine ⟨by decide, by decide, by decide, by decide, by decide⟩

/-- C1 (amended): `append_file` never repositions the stream. The new local
entry is written at the stream position held when the call begins, and that
position is what the new central-directory entry records as its
`local_header_offset`; when the call returns, the stream is positioned at the
byte after the newly written EOCD (`cd_offset + cd_size + 22`), so the next
append writes there rather than at the remembered `cd_offset`. -/
theorem claim_C1_amended (z : ZipAppender) (ename data : Bytes)
    (h : appendOk z ename data) :
    okEntriesOf (z.append_file ename data) =
      some (z.existing_entries ++ [cdEntryBytes (crc32 data)
        (deflateRaw data).length data.length z.file.pos ename]) ∧
    okPosOf (z.append_file ename data) =
      some (appendCdOffset z ename data +
        (appendedEntries z ename data).flatten.length + 22) := by
  rw [append_file_ok z ename data h]
  constructor
  · rfl
  · show some (fwrite (appendBigWrite z ename data) z.file).pos = _
    rw [fwrite_pos]
    unfold appendBigWrite
    simp only [List.length_append, localHeaderBytes_length, eocdBytes_length,
      appendCdOffset, Option.some.injEq]
    omega

/-- Closed instance of C1 (amended), at the sample archive. -/
theorem claim_C1_witness :
    okEntriesOf (sampleZ1.append_file [98] []) =
      some (sampleZ1.existing_entries ++ [cdEntryBytes (crc32 [])
        (deflateRaw []).length (List.length ([] : Bytes)) sampleZ1.file.pos
        [98]]) ∧
    okPosOf (sampleZ1.append_file [98] []) =
      some (appendCdOffset sampleZ1 [98] [] +
        (appendedEntries sampleZ1 [98] []).flatten.length + 22) :=
  claim_C1_amended sampleZ1 [98] [] (by decide)

/-! ## Claim C10 -/

theorem fwrite_data_length (bs : Bytes) (fs : FileState) :
    (fwrite bs fs).data.length =
      max (fs.pos + bs.length) (max fs.data.length fs.pos) := by
  simp only [fwrite, List.length_append, take_padTo_length, List.length_drop,
    padTo_length]
  omega

/-- One write keeps every byte below the write position, and keeps the
position and length above that byte. -/
theorem fwrite_frame_all (bs : Bytes) (fs : FileState) (i : Nat)
    (h1 : i < fs.pos) (h2 : i < fs.data.length) :
    (fwrite bs fs).data.getD i 0 = fs.data.getD i 0 ∧
    i < (fwrite bs fs).pos ∧ i < (fwrite bs fs).data.length := by
  refine ⟨fwrite_getD_frame bs fs i h1 h2, ?_, ?_⟩
  · rw [fwrite_pos]; omega
  · rw [fwrite_data_length]; omega

/-- The write loop keeps every byte below the initial position. -/
theorem foldl_fwrite_frame : ∀ (es : List Bytes) (fs : FileState) (i : Nat),
    i < fs.pos → i < fs.data.length →
    (es.foldl (fun f e => fwrite e f) fs).data.getD i 0 = fs.data.getD i 0 ∧
    i < (es.foldl (fun f e => fwrite e f) fs).pos ∧
    i < (es.foldl (fun f e => fwrite e f) fs).data.length := by
  intro es
  induction es with
  | nil => intro fs i h1 h2; exact ⟨rfl, h1, h2⟩
  | cons e t ih =>
    intro fs i h1 h2
    obtain ⟨e1, p1, l1⟩ := fwrite_frame_all e fs i h1 h2
    obtain ⟨e2, p2, l2⟩ := ih (fwrite e fs) i p1 l1
    exact ⟨by rw [List.foldl_cons, e2, e1], by simpa using p2, by simpa using l2⟩

/-- C10: a successful `append_file` writes only at or after the stream
position held when the call begins; every byte of the file strictly below
that position — in particular every previously written local entry — is
unchanged when the call returns. -/
theorem claim_C10_frame (z : ZipAppender) (ename data : Bytes)
    (z' : ZipAppender) (h : z.append_file ename data = .ok z') (i : Nat)
    (h1 : i < z.file.pos) (h2 : i < z.file.data.length) :
    z'.file.data.getD i 0 = z.file.data.getD i 0 := by
  simp only [ZipAppender.append_file] at h
  split at h
  · exact absurd h (by simp)
  · split at h
    · exact absurd h (by simp)
    · split at h
      · exact absurd h (by simp)
      · rename_i x1 header hLH x2 cdEntry hCD x3 eocd hE
        have hz' : z' = ⟨fwrite eocd ((z.existing_entries ++
            [cdEntry]).foldl (fun f e => fwrite e f)
            (fwrite (deflateRaw data) (fwrite header z.file))),
            z.existing_entries ++ [cdEntry]⟩ := by
          have := Except.ok.inj h
          exact this.symm
        subst hz'
        obtain ⟨e1, p1, l1⟩ := fwrite_frame_all header z.file i h1 h2
        obtain ⟨e2, p2, l2⟩ :=
          fwrite_frame_all (deflateRaw data) (fwrite header z.file) i p1 l1
        obtain ⟨e3, p3, l3⟩ := foldl_fwrite_frame (z.existing_entries ++
          [cdEntry]) (fwrite (deflateRaw data) (fwrite header z.file)) i p2 l2
        obtain ⟨e4, _, _⟩ := fwrite_frame_all eocd _ i p3 l3
        show (fwrite eocd _).data.getD i 0 = _
        rw [e4, e3, e2, e1]

/-- Closed instance of C10: the first byte of the sample archive is unchanged
by the second append. -/
theorem claim_C10_witness :
    sampleZ2.file.data.getD 0 0 = sampleZ1.file.data.getD 0 0 :=
  claim_C10_frame sampleZ1 [98] [] sampleZ2 (by decide) 0 (by decide)
    (by decide)

/-! ## Claim C2 -/

theorem err_bind {α β ε : Type} (e : ε) (f : α → Except ε β) :
    (Except.error e >>= f) = Except.error e := rfl

/-- Packing the EOCD raises `struct.error` when the entry count does not fit
in 16 bits. -/
theorem mkEocd_count_overflow (n sz off : Nat) (h : 65536 ≤ n) :
    mkEocd n sz off = .error .structError := by
  simp [mkEocd, packH, packL, ok_bind, err_bind, show ¬ n < 65536 from by omega]

theorem foldl_fwrite_pos (es : List Bytes) (fs : FileState) :
    (es.foldl (fun f e => fwrite e f) fs).pos =
      fs.pos + (es.map List.length).sum := by
  induction es generalizing fs with
  | nil => simp
  | cons e t ih =>
    rw [List.foldl_cons, ih, fwrite_pos]
    simp only [List.map_cons, List.sum_cons]
    omega

/-- With every local-header field in range but `len(entries) ≥ 65535`, the
call writes the local entry and the whole central directory, then raises
`struct.error` while packing the EOCD entry count — the stream is left
modified and without a trailing EOCD. -/
theorem append_file_count_overflow (z : ZipAppender) (ename data : Bytes)
    (h1 : ename.length < 65536) (h2 : crc32 data < 4294967296)
    (h3 : (deflateRaw data).length < 4294967296)
    (h4 : data.length < 4294967296) (h5 : z.file.pos < 4294967296)
    (h6 : 65535 ≤ z.existing_entries.length) :
    z.append_file ename data = .error (.structError,
      (appendedEntries z ename data).foldl (fun f e => fwrite e f)
        (fwrite (deflateRaw data)
          (fwrite (localHeaderBytes (crc32 data) (deflateRaw data).length
            data.length ename) z.file))) := by
  have hLH := mkLocalHeader_ok (crc32 data) (deflateRaw data).length
    data.length ename h2 h3 h4 h1
  have hCD := mkCdEntry_ok (crc32 data) (deflateRaw data).length
    data.length z.file.pos ename h2 h3 h4 h1 h5
  simp only [ZipAppender.append_file, hLH, hCD]
  rw [show z.existing_entries ++ [cdEntryBytes (crc32 data)
      (deflateRaw data).length data.length z.file.pos ename] =
    appendedEntries z ename data from rfl]
  rw [mkEocd_count_overflow _ _ _ (by
    simp only [appendedEntries, List.length_append, List.length_singleton]
    omega)]

/-- The appender state used to exercise the entry-count limit: 65 535
existing entries over an empty stream. -/
def bigEntriesZ : ZipAppender := ⟨⟨[], 0⟩, List.replicate 65535 []⟩

/-- C2 counterexample: with `len(entries) = 65535` the call does fail, but
not by rejecting up front and leaving the archive unchanged: the raised
error is `struct.error` and the stream state carried at the raise differs
from the pre-call stream — the local entry and directory were written. -/
theorem claim_C2_counterexample :
    bigEntriesZ.existing_entries.length = 65535 ∧
    errKindOf (bigEntriesZ.append_file [97] []) = some .structError ∧
    errFileOf (bigEntriesZ.append_file [97] []) ≠ some bigEntriesZ.file := by
  have hlen : bigEntriesZ.existing_entries.length = 65535 := by
    show (List.replicate 65535 ([] : Bytes)).length = 65535
    rw [List.length_replicate]
  have herr := append_file_count_overflow bigEntriesZ [97] [] (by decide)
    (by decide) (by decide) (by decide) (by decide) (by omega)
  refine ⟨hlen, ?_, ?_⟩
  · rw [herr]; rfl
  · rw [herr]
    simp only [errFileOf, ne_eq, Option.some.injEq]
    intro hc
    have hpos := congrArg FileState.pos hc
    rw [foldl_fwrite_pos] at hpos
    simp only [fwrite_pos, localHeaderBytes_length,
      show (deflateRaw []).length = 5 from by decide] at hpos
    have hz : bigEntriesZ.file.pos = 0 := rfl
    rw [hz] at hpos
    omega

/-- C2 (amended): no 16-bit or 32-bit field is ever silently wrapped —
out-of-range values raise `struct.error` — but there is no
`ArchiveLimitExceeded`-style up-front rejection: with every local-header
field in range, a call made when `len(entries) ≥ 65 535` raises
`struct.error` while packing the EOCD entry count, after the local entry and
the re-emitted central directory have already been written, so the archive
is modified and left without a trailing EOCD rather than "valid and
unchanged". -/
theorem claim_C2_amended (z : ZipAppender) (ename data : Bytes)
    (h1 : ename.length < 65536) (h2 : crc32 data < 4294967296)
    (h3 : (deflateRaw data).length < 4294967296)
    (h4 : data.length < 4294967296) (h5 : z.file.pos < 4294967296)
    (h6 : 65535 ≤ z.existing_entries.length) :
    errKindOf (z.append_file ename data) = some .structError ∧
    errFileOf (z.append_file ename data) =
      some ((appendedEntries z ename data).foldl (fun f e => fwrite e f)
        (fwrite (deflateRaw data)
          (fwrite (localHeaderBytes (crc32 data) (deflateRaw data).length
            data.length ename) z.file))) := by
  rw [append_file_count_overflow z ename data h1 h2 h3 h4 h5 h6]
  exact ⟨rfl, rfl⟩

/-- Closed instance of C2 (amended) at the 65 535-entry state. -/
theorem claim_C2_witness :
    errKindOf (bigEntriesZ.append_file [97] []) = some .structError ∧
    errFileOf (bigEntriesZ.append_file [97] []) =
      some ((appendedEntries bigEntriesZ [97] []).foldl
        (fun f e => fwrite e f)
        (fwrite (deflateRaw [])
          (fwrite (localHeaderBytes (crc32 []) (deflateRaw []).length
            (List.length ([] : Bytes)) [97]) bigEntriesZ.file))) :=
  claim_C2_amended bigEntriesZ [97] [] (by decide) (by decide) (by decide)
    (by decide) (by decide) (by
      show 65535 ≤ (List.replicate 65535 ([] : Bytes)).length
      rw [List.length_replicate])

/-! ## Reading fields back out of the written records -/

theorem slice_seg (A B C : Bytes) :
    slice (A ++ (B ++ C)) A.length (A.length + B.length) = B := by
  unfold slice
  rw [List.drop_left' rfl, Nat.add_sub_cancel_left, List.take_left]

theorem slice_last (A B : Bytes) :
    slice (A ++ B) A.length (A.length + B.length) = B := by
  unfold slice
  rw [List.drop_left' rfl, Nat.add_sub_cancel_left, List.take_length]

theorem slice_append_of_le (A X : Bytes) (i j : Nat) (hj : j ≤ A.length) :
    slice (A ++ X) i j = slice A i j := by
  unfold slice
  rw [List.drop_append_eq_append_drop, List.take_append_eq_append_take]
  rcases le_or_lt i A.length with hi | hi
  · rw [show j - i - (A.drop i).length = 0 from by
      simp only [List.length_drop]; omega]
    simp
  · rw [List.drop_eq_nil_of_le (by omega), show j - i = 0 from by omega]
    simp

theorem slice_seg2 (A B C D : Bytes) :
    slice (A ++ (B ++ (C ++ D))) (A.length + B.length)
      (A.length + B.length + C.length) = C := by
  rw [show A ++ (B ++ (C ++ D)) = (A ++ B) ++ (C ++ D) from by
    rw [List.append_assoc]]
  have h2 := slice_seg (A ++ B) C D
  simpa [List.length_append] using h2

theorem slice_seg3 (A B C D : Bytes) :
    slice (A ++ (B ++ (C ++ D))) (A.length + B.length + C.length)
      (A.length + B.length + C.length + D.length) = D := by
  rw [show A ++ (B ++ (C ++ D)) = ((A ++ B) ++ C) ++ D from by
    simp [List.append_assoc]]
  have h2 := slice_last ((A ++ B) ++ C) D
  simp only [List.length_append] at h2
  exact h2

theorem appendBigWrite_decomp (z : ZipAppender) (ename data : Bytes) :
    appendBigWrite z ename data =
      localHeaderBytes (crc32 data) (deflateRaw data).length data.length ename
        ++ (deflateRaw data ++ ((appendedEntries z ename data).flatten ++
          eocdBytes (z.existing_entries.length + 1)
            (appendedEntries z ename data).flatten.length
            (appendCdOffset z ename data))) := by
  simp [appendBigWrite, List.append_assoc]

theorem appendBigWrite_length (z : ZipAppender) (ename data : Bytes) :
    (appendBigWrite z ename data).length =
      30 + ename.length + (deflateRaw data).length +
        (appendedEntries z ename data).flatten.length + 22 := by
  simp only [appendBigWrite, List.length_append, localHeaderBytes_length,
    eocdBytes_length]

/-- On success, a slice of the resulting stream taken relative to the entry
position reads back out of the single big write. -/
theorem append_slice (z : ZipAppender) (ename data : Bytes)
    (h : appendOk z ename data) (i j : Nat)
    (hj : j ≤ (appendBigWrite z ename data).length) :
    sliceOfData (z.append_file ename data) (z.file.pos + i) (z.file.pos + j) =
      some (slice (appendBigWrite z ename data) i j) := by
  rw [append_file_ok z ename data h]
  simp only [sliceOfData]
  rw [fwrite_slice _ _ _ _ hj]

/-! ## Claim C3 -/

/-- C3: for every payload appended (the empty payload included), the bytes
written immediately after the local header are the raw-DEFLATE stream of the
payload (no zlib/gzip wrapper; modelled by `deflateRaw`), raw-inflating them
returns exactly the payload, the stored CRC field (bytes 14–18 of the local
header) is the CRC-32 of the uncompressed payload, the recorded compressed
size (bytes 18–22) is the compressed stream's length, and that length is
never zero. -/
theorem claim_C3_compression (z : ZipAppender) (ename data : Bytes)
    (h : appendOk z ename data) :
    sliceOfData (z.append_file ename data)
        (z.file.pos + (30 + ename.length))
        (z.file.pos + ((30 + ename.length) + (deflateRaw data).length)) =
      some (deflateRaw data) ∧
    inflateRaw (deflateRaw data) = some data ∧
    sliceOfData (z.append_file ename data) (z.file.pos + 14)
      (z.file.pos + 18) = some (w32 (crc32 data)) ∧
    sliceOfData (z.append_file ename data) (z.file.pos + 18)
      (z.file.pos + 22) = some (w32 (deflateRaw data).length) ∧
    (deflateRaw data).length ≠ 0 := by
  have hLHlen := localHeaderBytes_length (crc32 data) (deflateRaw data).length
    data.length ename
  refine ⟨?_, inflateRaw_deflateRaw data, ?_, ?_, ?_⟩
  · rw [append_slice z ename data h _ _ (by rw [appendBigWrite_length]; omega)]
    rw [appendBigWrite_decomp, show 30 + ename.length =
      (localHeaderBytes (crc32 data) (deflateRaw data).length data.length
        ename).length from hLHlen.symm]
    rw [slice_seg]
  · rw [append_slice z ename data h _ _ (by rw [appendBigWrite_length]; omega)]
    rw [appendBigWrite_decomp,
      slice_append_of_le _ _ 14 18 (by rw [hLHlen]; omega)]
    rfl
  · rw [append_slice z ename data h _ _ (by rw [appendBigWrite_length]; omega)]
    rw [appendBigWrite_decomp,
      slice_append_of_le _ _ 18 22 (by rw [hLHlen]; omega)]
    rfl
  · intro h0
    exact deflateRaw_ne_nil data (List.length_eq_zero.mp h0)

/-- Closed instance of C3 at the sample archive. -/
theorem claim_C3_witness :
    sliceOfData (sampleZ1.append_file [98] []) 136 141 =
      some (deflateRaw []) ∧
    inflateRaw (deflateRaw []) = some [] ∧
    sliceOfData (sampleZ1.append_file [98] []) 119 123 =
      some (w32 (crc32 [])) ∧
    sliceOfData (sampleZ1.append_file [98] []) 123 127 =
      some (w32 (deflateRaw []).length) ∧
    (deflateRaw ([] : Bytes)).length ≠ 0 :=
  claim_C3_compression sampleZ1 [98] [] (by decide)

/-! ## Claim C4 -/

theorem appendedEntries_flatten (z : ZipAppender) (ename data : Bytes) :
    (appendedEntries z ename data).flatten =
      z.existing_entries.flatten ++ appendedEntry z ename data := by
  simp [appendedEntries]

/-- C4: the central directory emitted by an append consists of the
pre-existing central-directory-entry blobs byte-for-byte, in their original
order, followed by the newly synthesized entry; the in-memory list grows by
exactly that entry, so pre-existing entries are never altered. -/
theorem claim_C4_preservation (z : ZipAppender) (ename data : Bytes)
    (h : appendOk z ename data) :
    okEntriesOf (z.append_file ename data) =
      some (z.existing_entries ++ [appendedEntry z ename data]) ∧
    sliceOfData (z.append_file ename data) (appendCdOffset z ename data)
        (appendCdOffset z ename data +
          (appendedEntries z ename data).flatten.length) =
      some (z.existing_entries.flatten ++ appendedEntry z ename data) := by
  have hLHlen := localHeaderBytes_length (crc32 data) (deflateRaw data).length
    data.length ename
  constructor
  · rw [append_file_ok z ename data h]
    rfl
  · rw [show appendCdOffset z ename data = z.file.pos +
      ((30 + ename.length) + (deflateRaw data).length) from by
        simp only [appendCdOffset]; omega]
    rw [show z.file.pos + ((30 + ename.length) + (deflateRaw data).length) +
        (appendedEntries z ename data).flatten.length =
      z.file.pos + (((30 + ename.length) + (deflateRaw data).length) +
        (appendedEntries z ename data).flatten.length) from by omega]
    rw [append_slice z ename data h _ _
      (by rw [appendBigWrite_length]; omega)]
    rw [appendBigWrite_decomp, show 30 + ename.length =
      (localHeaderBytes (crc32 data) (deflateRaw data).length data.length
        ename).length from hLHlen.symm]
    rw [slice_seg2, appendedEntries_flatten]

/-- Closed instance of C4 at the sample archive. -/
theorem claim_C4_witness :
    okEntriesOf (sampleZ1.append_file [98] []) =
      some (sampleZ1.existing_entries ++ [appendedEntry sampleZ1 [98] []]) ∧
    sliceOfData (sampleZ1.append_file [98] []) 141 235 =
      some (sampleZ1.existing_entries.flatten ++
        appendedEntry sampleZ1 [98] []) :=
  claim_C4_preservation sampleZ1 [98] [] (by decide)

/-! ## Claim C5 -/

/-- C5: after every append the 22 bytes at the tail are the EOCD record with
`entries_on_disk = total_entries = len(entries)`, central-directory size
equal to the byte length of the emitted directory (the stream position after
writing the directory minus `cd_offset`), the `cd_offset` the directory was
written at, and comment length 0; the record begins exactly at
`cd_offset + cd_size`, and the stream ends `22` bytes later. -/
theorem claim_C5_eocd (z : ZipAppender) (ename data : Bytes)
    (h : appendOk z ename data) :
    sliceOfData (z.append_file ename data)
        (appendCdOffset z ename data +
          (appendedEntries z ename data).flatten.length)
        (appendCdOffset z ename data +
          (appendedEntries z ename data).flatten.length + 22) =
      some (eocdBytes (appendedEntries z ename data).length
        (appendedEntries z ename data).flatten.length
        (appendCdOffset z ename data)) ∧
    okPosOf (z.append_file ename data) =
      some (appendCdOffset z ename data +
        (appendedEntries z ename data).flatten.length + 22) := by
  have hLHlen := localHeaderBytes_length (crc32 data) (deflateRaw data).length
    data.length ename
  have hcount : (appendedEntries z ename data).length =
      z.existing_entries.length + 1 := by
    simp [appendedEntries]
  constructor
  · rw [show appendCdOffset z ename data +
        (appendedEntries z ename data).flatten.length =
      z.file.pos + (((30 + ename.length) + (deflateRaw data).length) +
        (appendedEntries z ename data).flatten.length) from by
          simp only [appendCdOffset]; omega]
    rw [show z.file.pos + (((30 + ename.length) + (deflateRaw data).length) +
        (appendedEntries z ename data).flatten.length) + 22 =
      z.file.pos + ((((30 + ename.length) + (deflateRaw data).length) +
        (appendedEntries z ename data).flatten.length) + 22) from by omega]
    rw [append_slice z ename data h _ _
      (by have := appendBigWrite_length z ename data; omega)]
    rw [appendBigWrite_decomp, show 30 + ename.length =
      (localHeaderBytes (crc32 data) (deflateRaw data).length data.length
        ename).length from hLHlen.symm]
    rw [show (22 : Nat) = (eocdBytes (z.existing_entries.length + 1)
      (appendedEntries z ename data).flatten.length
      (appendCdOffset z ename data)).length from (eocdBytes_length _ _ _).symm]
    rw [slice_seg3, hcount]
  · rw [append_file_ok z ename data h]
    show some (fwrite (appendBigWrite z ename data) z.file).pos = _
    rw [fwrite_pos, appendBigWrite_length]
    simp only [Option.some.injEq, appendCdOffset]
    omega

/-- Closed instance of C5 at the sample archive. -/
theorem claim_C5_witness :
    sliceOfData (sampleZ1.append_file [98] []) 235 257 =
      some (eocdBytes 2 94 141) ∧
    okPosOf (sampleZ1.append_file [98] []) = some 257 :=
  claim_C5_eocd sampleZ1 [98] [] (by decide)

/-! ## Claim C6 -/

theorem slice_front (A X : Bytes) :
    slice (A ++ X) 0 A.length = A := by
  unfold slice
  rw [Nat.sub_zero, List.drop_zero, List.take_left]

/-- C6: the emitted local file header is exactly the signature `PK\x03\x04`,
version-needed 20, general-purpose flag `0x0800` (and no other bits),
method 8, time 0, date 0, the CRC-32 of the payload, compressed size,
uncompressed size, filename length, extra length 0, then the filename bytes;
and the synthesized central directory entry carries the same flag, method,
CRC and sizes, zero extra/comment/disk/attribute fields, and the 32-bit
`local_header_offset` back-pointer to the entry position. -/
theorem claim_C6_record_layout (z : ZipAppender) (ename data : Bytes)
    (h : appendOk z ename data) :
    sliceOfData (z.append_file ename data) z.file.pos
        (z.file.pos + (30 + ename.length)) =
      some (ZIP_HEADER ++ w16 20 ++ w16 0x0800 ++ w16 8 ++ w16 0 ++ w16 0 ++
        w32 (crc32 data) ++ w32 (deflateRaw data).length ++
        w32 data.length ++ w16 ename.length ++ w16 0 ++ ename) ∧
    okEntriesOf (z.append_file ename data) =
      some (z.existing_entries ++
        [CENTRAL_DIR_HEADER ++ w16 20 ++ w16 20 ++ w16 0x0800 ++ w16 8 ++
          w16 0 ++ w16 0 ++ w32 (crc32 data) ++ w32 (deflateRaw data).length
          ++ w32 data.length ++ w16 ename.length ++ w16 0 ++ w16 0 ++ w16 0
          ++ w16 0 ++ w32 0 ++ w32 z.file.pos ++ ename]) := by
  have hLHlen := localHeaderBytes_length (crc32 data) (deflateRaw data).length
    data.length ename
  constructor
  · have hs := append_slice z ename data h 0 (30 + ename.length)
      (by rw [appendBigWrite_length]; omega)
    rw [show z.file.pos + 0 = z.file.pos from rfl] at hs
    rw [hs]
    rw [appendBigWrite_decomp, show 30 + ename.length =
      (localHeaderBytes (crc32 data) (deflateRaw data).length data.length
        ename).length from hLHlen.symm]
    rw [slice_front]
    rfl
  · rw [append_file_ok z ename data h]
    rfl

/-- Closed instance of C6 at the sample archive. -/
theorem claim_C6_witness :
    sliceOfData (sampleZ1.append_file [98] []) 105 136 =
      some (ZIP_HEADER ++ w16 20 ++ w16 0x0800 ++ w16 8 ++ w16 0 ++ w16 0 ++
        w32 (crc32 []) ++ w32 (deflateRaw []).length ++
        w32 (List.length ([] : Bytes)) ++ w16 (List.length [98]) ++ w16 0 ++
        [98]) ∧
    okEntriesOf (sampleZ1.append_file [98] []) =
      some (sampleZ1.existing_entries ++
        [CENTRAL_DIR_HEADER ++ w16 20 ++ w16 20 ++ w16 0x0800 ++ w16 8 ++
          w16 0 ++ w16 0 ++ w32 (crc32 []) ++ w32 (deflateRaw []).length ++
          w32 (List.length ([] : Bytes)) ++ w16 (List.length [98]) ++ w16 0
          ++ w16 0 ++ w16 0 ++ w16 0 ++ w32 0 ++ w32 sampleZ1.file.pos ++
          [98]]) :=
  claim_C6_record_layout sampleZ1 [98] [] (by decide)

/-! ## Claim C8 -/

theorem slice_pos_add (d : Bytes) (q n : Nat) :
    slice d q (q + n) = (d.drop q).take n := by
  unfold slice
  rw [Nat.add_sub_cancel_left]

theorem slice_slice_of_le (d : Bytes) (i j a b : Nat) (hb : i + b ≤ j) :
    slice (slice d i j) a b = slice d (i + a) (i + b) := by
  unfold slice
  rw [List.drop_take, List.drop_drop, List.take_take]
  rw [show (b - a) ⊓ (j - i - a) = b - a from by omega]
  rw [show i + b - (i + a) = b - a from by omega]

theorem unpackH_slice (d : Bytes) (k : Nat) (hk : k + 2 ≤ d.length) :
    unpackH (slice d k (k + 2)) = .ok (getLE16 d k) := by
  have h1 : k < d.length := by omega
  have h2 : k + 1 < d.length := by omega
  have hd : slice d k (k + 2) = [d.getD k 0, d.getD (k + 1) 0] := by
    unfold slice
    rw [show k + 2 - k = 2 from by omega]
    rw [List.drop_eq_getElem_cons h1, List.drop_eq_getElem_cons h2]
    rw [List.getD_eq_getElem d 0 h1, List.getD_eq_getElem d 0 h2]
    rfl
  rw [hd]
  rfl

theorem unpackL_slice (d : Bytes) (k : Nat) (hk : k + 4 ≤ d.length) :
    unpackL (slice d k (k + 4)) = .ok (getLE32 d k) := by
  have h1 : k < d.length := by omega
  have h2 : k + 1 < d.length := by omega
  have h3 : k + 2 < d.length := by omega
  have h4 : k + 3 < d.length := by omega
  have hd : slice d k (k + 4) = [d.getD k 0, d.getD (k + 1) 0,
      d.getD (k + 2) 0, d.getD (k + 3) 0] := by
    unfold slice
    rw [show k + 4 - k = 4 from by omega]
    rw [List.drop_eq_getElem_cons h1, List.drop_eq_getElem_cons h2,
      List.drop_eq_getElem_cons h3, List.drop_eq_getElem_cons h4]
    rw [List.getD_eq_getElem d 0 h1, List.getD_eq_getElem d 0 h2,
      List.getD_eq_getElem d 0 h3, List.getD_eq_getElem d 0 h4]
    rfl
  rw [hd]
  rfl

/-- The total byte length of the central-directory entry whose 46-byte fixed
header starts at offset `q`: the header plus the three little-endian 16-bit
length fields stored at offsets 28, 30 and 32 of the header. -/
def cdeLen (d : Bytes) (q : Nat) : Nat :=
  46 + getLE16 d (q + 28) + getLE16 d (q + 30) + getLE16 d (q + 32)

/-- The blob `(header | name | extra | comment)` retained for the
central-directory entry at offset `q`. -/
def cdeBlobAt (d : Bytes) (q : Nat) : Bytes :=
  slice d q (q + 46) ++
  slice d (q + 46) (q + 46 + getLE16 d (q + 28)) ++
  slice d (q + 46 + getLE16 d (q + 28))
    (q + 46 + getLE16 d (q + 28) + getLE16 d (q + 30)) ++
  slice d (q + 46 + getLE16 d (q + 28) + getLE16 d (q + 30))
    (q + 46 + getLE16 d (q + 28) + getLE16 d (q + 30) + getLE16 d (q + 32))

/-- The directory region starting at `q` holds `n` complete entries. -/
def chainOk (d : Bytes) : Nat → Nat → Bool
  | _, 0 => true
  | q, n + 1 =>
    decide (q + cdeLen d q ≤ d.length) && chainOk d (q + cdeLen d q) (n)

/-- The `n` entry blobs read in order from offset `q`. -/
def chainBlobs (d : Bytes) : Nat → Nat → List Bytes
  | _, 0 => []
  | q, n + 1 => cdeBlobAt d q :: chainBlobs d (q + cdeLen d q) (n)

/-- The stream position after reading `n` entries from offset `q`. -/
def chainEnd (d : Bytes) : Nat → Nat → Nat
  | q, 0 => q
  | q, n + 1 => chainEnd d (q + cdeLen d q) (n)

theorem chainBlobs_length (d : Bytes) :
    ∀ (n q : Nat), (chainBlobs d q n).length = n := by
  intro n
  induction n with
  | zero => intro q; rfl
  | succ n ih =>
    intro q
    rw [chainBlobs, List.length_cons, ih]

/-- Method `_read_central_dir_entry` at an offset where the stream holds a complete
entry returns the `(header | name | extra | comment)` blob and advances past
it. -/
theorem readCde_ok (d : Bytes) (q : Nat)
    (hq : q + cdeLen d q ≤ d.length) :
    readCde ⟨d, q⟩ = .ok (cdeBlobAt d q, ⟨d, q + cdeLen d q⟩) := by
  have h46le : q + 46 ≤ d.length := by
    unfold cdeLen at hq; omega
  have hb1 : q + 46 + getLE16 d (q + 28) ≤ d.length := by
    unfold cdeLen at hq; omega
  have hb2 : q + 46 + getLE16 d (q + 28) + getLE16 d (q + 30) ≤ d.length := by
    unfold cdeLen at hq; omega
  have hb3 : q + 46 + getLE16 d (q + 28) + getLE16 d (q + 30) +
      getLE16 d (q + 32) ≤ d.length := by
    unfold cdeLen at hq; omega
  have h46 : ((d.drop q).take 46).length = 46 := by
    rw [List.length_take, List.length_drop]; omega
  have hu1 : unpackH (slice ((d.drop q).take 46) 28 30) =
      .ok (getLE16 d (q + 28)) := by
    rw [← slice_pos_add d q 46, slice_slice_of_le d q (q + 46) 28 30
      (by omega)]
    rw [show q + 30 = (q + 28) + 2 from by omega]
    exact unpackH_slice d (q + 28) (by omega)
  have hu2 : unpackH (slice ((d.drop q).take 46) 30 32) =
      .ok (getLE16 d (q + 30)) := by
    rw [← slice_pos_add d q 46, slice_slice_of_le d q (q + 46) 30 32
      (by omega)]
    rw [show q + 32 = (q + 30) + 2 from by omega]
    exact unpackH_slice d (q + 30) (by omega)
  have hu3 : unpackH (slice ((d.drop q).take 46) 32 34) =
      .ok (getLE16 d (q + 32)) := by
    rw [← slice_pos_add d q 46, slice_slice_of_le d q (q + 46) 32 34
      (by omega)]
    rw [show q + 34 = (q + 32) + 2 from by omega]
    exact unpackH_slice d (q + 32) (by omega)
  have hlen1 : ((d.drop (q + 46)).take (getLE16 d (q + 28))).length =
      getLE16 d (q + 28) := by
    rw [List.length_take, List.length_drop]; omega
  have hlen2 : ((d.drop (q + 46 + getLE16 d (q + 28))).take
      (getLE16 d (q + 30))).length = getLE16 d (q + 30) := by
    rw [List.length_take, List.length_drop]; omega
  have hlen3 : ((d.drop (q + 46 + getLE16 d (q + 28) + getLE16 d (q + 30))).take
      (getLE16 d (q + 32))).length = getLE16 d (q + 32) := by
    rw [List.length_take, List.length_drop]; omega
  rw [show q + cdeLen d q = q + 46 + getLE16 d (q + 28) + getLE16 d (q + 30)
    + getLE16 d (q + 32) from by unfold cdeLen; omega]
  simp only [readCde, fread, h46, hu1, ok_bind, hu2, hu3, hlen1, hlen2, hlen3,
    cdeBlobAt]
  rw [slice_pos_add d q 46]
  rw [show q + 46 + getLE16 d (q + 28) = (q + 46) + getLE16 d (q + 28)
    from rfl]
  rw [slice_pos_add d (q + 46) (getLE16 d (q + 28))]
  rw [slice_pos_add d (q + 46 + getLE16 d (q + 28)) (getLE16 d (q + 30))]
  rw [slice_pos_add d (q + 46 + getLE16 d (q + 28) + getLE16 d (q + 30))
    (getLE16 d (q + 32))]

/-- The `for` loop of `_load_central_dir`, reading a complete chain of `n`
entries from offset `q`. -/
theorem readCdes_ok (d : Bytes) :
    ∀ (n q : Nat), chainOk d q n = true →
      readCdes n ⟨d, q⟩ = .ok (chainBlobs d q n, ⟨d, chainEnd d q n⟩) := by
  intro n
  induction n with
  | zero => intro q _; rfl
  | succ n ih =>
    intro q h
    rw [chainOk, Bool.and_eq_true, decide_eq_true_eq] at h
    obtain ⟨h1, h2⟩ := h
    simp only [readCdes]
    rw [readCde_ok d q h1, ok_bind, ih _ h2, ok_bind]
    rfl

/-- The EOCD signature found at `p` makes the 22-byte read pass the
`startswith` check. -/
theorem eocd_prefix_check (d : Bytes) (p : Nat)
    (hocc : occursAt END_CENTRAL_DIR d p) :
    END_CENTRAL_DIR.isPrefixOf ((d.drop p).take 22) = true := by
  have hocc' : (d.drop p).take 4 = [80, 75, 5, 6] := hocc
  have hl4 : d.drop p = [80, 75, 5, 6] ++ (d.drop p).drop 4 := by
    conv_lhs => rw [← List.take_append_drop 4 (d.drop p)]
    rw [hocc']
  rw [hl4, List.take_append_eq_append_take,
    List.take_of_length_le (by decide)]
  simp [List.isPrefixOf, END_CENTRAL_DIR]

/-- C8: `__init__` loads the directory by reading `total_entries` (the
little-endian 16-bit field at offset 8 of the located EOCD) and `cd_offset`
(the 32-bit field at offset 16), seeking to `cd_offset`, and reading that
many entries in order, each retained as the opaque concatenation
`(header | name | extra | comment)` whose three lengths come from the 16-bit
fields at offsets 28, 30 and 32 of its 46-byte header (see `cdeBlobAt`);
afterwards the in-memory entries list has exactly `total_entries` elements
in directory order. -/
theorem claim_C8_directory_parse (fs : FileState) (p : Nat) (fs1 : FileState)
    (hfind : findEocd fs = .ok (p, fs1))
    (h20 : p + 20 ≤ fs.data.length)
    (hchain : chainOk fs.data (getLE32 fs.data (p + 16))
      (getLE16 fs.data (p + 8)) = true) :
    ZipAppender.init fs = .ok
      ⟨⟨fs.data, chainEnd fs.data (getLE32 fs.data (p + 16))
          (getLE16 fs.data (p + 8))⟩,
        chainBlobs fs.data (getLE32 fs.data (p + 16))
          (getLE16 fs.data (p + 8))⟩ ∧
    (chainBlobs fs.data (getLE32 fs.data (p + 16))
      (getLE16 fs.data (p + 8))).length = getLE16 fs.data (p + 8) := by
  refine ⟨?_, chainBlobs_length fs.data _ _⟩
  have key : occursAt END_CENTRAL_DIR fs.data p ∧
      fs1 = ⟨fs.data, fs.data.length⟩ := by
    rw [findEocd_eq] at hfind
    cases hr : rfind END_CENTRAL_DIR (tailWindow fs.data) with
    | none => rw [hr] at hfind; exact absurd hfind (by simp)
    | some p' =>
      rw [hr] at hfind
      have hinj := Except.ok.inj hfind
      have hp : fs.data.length - min 1024 fs.data.length + p' = p :=
        congrArg Prod.fst hinj
      have hsnd : fs1 = ⟨fs.data, fs.data.length⟩ :=
        (congrArg Prod.snd hinj).symm
      rcases rfind_eq_some _ _ _ (by decide) hr with ⟨ho, _⟩
      refine ⟨?_, hsnd⟩
      rw [← hp]
      exact (occursAt_drop END_CENTRAL_DIR fs.data
        (fs.data.length - min 1024 fs.data.length) p').mp ho
  obtain ⟨hocc, hfs1⟩ := key
  subst hfs1
  have hu8 : unpackH (slice ((fs.data.drop p).take 22) 8 10) =
      .ok (getLE16 fs.data (p + 8)) := by
    rw [← slice_pos_add fs.data p 22,
      slice_slice_of_le fs.data p (p + 22) 8 10 (by omega)]
    rw [show p + 10 = (p + 8) + 2 from by omega]
    exact unpackH_slice fs.data (p + 8) (by omega)
  have hu12 : unpackL (slice ((fs.data.drop p).take 22) 12 16) =
      .ok (getLE32 fs.data (p + 12)) := by
    rw [← slice_pos_add fs.data p 22,
      slice_slice_of_le fs.data p (p + 22) 12 16 (by omega)]
    rw [show p + 16 = (p + 12) + 4 from by omega]
    exact unpackL_slice fs.data (p + 12) (by omega)
  have hu16 : unpackL (slice ((fs.data.drop p).take 22) 16 20) =
      .ok (getLE32 fs.data (p + 16)) := by
    rw [← slice_pos_add fs.data p 22,
      slice_slice_of_le fs.data p (p + 22) 16 20 (by omega)]
    rw [show p + 20 = (p + 16) + 4 from by omega]
    exact unpackL_slice fs.data (p + 16) (by omega)
  simp only [ZipAppender.init, loadCentralDir]
  rw [hfind, ok_bind]
  simp only [seekTo, fread]
  simp only [eocd_prefix_check fs.data p hocc, if_true, hu8, ok_bind, hu12,
    hu16]
  rw [readCdes_ok fs.data _ _ hchain, ok_bind]

/-- Closed instance of C8 at the sample archive: its EOCD sits at offset 83,
records one entry at `cd_offset` 36, and loading retains exactly that blob. -/
theorem claim_C8_witness :
    ZipAppender.init ⟨sample1Data, 0⟩ = .ok
      ⟨⟨sample1Data, chainEnd sample1Data (getLE32 sample1Data (83 + 16))
          (getLE16 sample1Data (83 + 8))⟩,
        chainBlobs sample1Data (getLE32 sample1Data (83 + 16))
          (getLE16 sample1Data (83 + 8))⟩ ∧
    (chainBlobs sample1Data (getLE32 sample1Data (83 + 16))
      (getLE16 sample1Data (83 + 8))).length =
        getLE16 sample1Data (83 + 8) :=
  claim_C8_directory_parse ⟨sample1Data, 0⟩ 83 ⟨sample1Data, 105⟩
    (by decide) (by decide) (by decide)

end ZipSpec
